import Mathlib

/-
Verification development for surface_dynamics/interval_exchanges/cover.py
(class PermutationCover).

Shallow embedding conventions:
* labels are identified with their alphabet rank (the code converts every
  label through alphabet.rank before use), so the alphabet is {0, ..., m-1};
* a monodromy permutation is stored exactly as in the code: a 0-indexed list
  l with l[d] = image of copy d;
* the base permutation object is an external collaborator (it lives in
  template.py, which is repository code not included under src/); the pieces
  of it that cover.py consumes (the signed interval diagram, the glued
  interval diagram, the two rows of labels, the twin structure, and the
  PermutationIET type tag) are carried as fields of the embedded data model
  and are modelled from the spec where a claim depends on their shape;
* the Sage / GAP collaborators (Permutation arithmetic and cycle_type,
  libgap character tables, matrix left kernels) are modelled by explicit
  executable counterparts, documented at their definitions.
-/

/-- A list l is a valid permutation table on {0, ..., n-1}: this is the
well-formedness that Sage's Permutation constructor enforces on the
1-indexed translation of l (cover.py, covering_data). -/
def IsPermList (n : ℕ) (l : List ℕ) : Prop :=
  l.length = n ∧ l.Nodup ∧ ∀ x ∈ l, x < n

instance (n : ℕ) (l : List ℕ) : Decidable (IsPermList n l) :=
  inferInstanceAs (Decidable (l.length = n ∧ l.Nodup ∧ ∀ x ∈ l, x < n))

/-- The permutation of Fin n encoded by a valid permutation list, with the
identity as a fallback on invalid data (Sage would raise there; every
theorem that uses this conversion assumes IsPermList, so the fallback is
never hit in a statement). The forward map is list indexing, the inverse
is indexOf: these are exactly the two lookups perm(label)[d] and
perm(label).index(d) used by cover.py. -/
def listToPermOr1 (n : ℕ) (l : List ℕ) : Equiv.Perm (Fin n) :=
  if h : IsPermList n l then
    { toFun := fun i => ⟨l.getD i.1 0, by
        obtain ⟨hlen, hnd, hmem⟩ := h
        have hi : (i : ℕ) < l.length := by rw [hlen]; exact i.2
        rw [List.getD_eq_getElem l 0 hi]
        exact hmem _ (List.getElem_mem hi)⟩
      invFun := fun j => ⟨l.indexOf j.1, by
        obtain ⟨hlen, hnd, hmem⟩ := h
        have hsub : l.toFinset ⊆ Finset.range n := fun x hx =>
          Finset.mem_range.2 (hmem x (List.mem_toFinset.1 hx))
        have hcard : (Finset.range n).card ≤ l.toFinset.card := by
          rw [List.toFinset_card_of_nodup hnd, hlen, Finset.card_range]
        have hfin : l.toFinset = Finset.range n :=
          Finset.eq_of_subset_of_card_le hsub hcard
        have hj : (j : ℕ) ∈ l := by
          rw [← List.mem_toFinset, hfin]
          exact Finset.mem_range.2 j.2
        have := List.indexOf_lt_length.2 hj
        omega⟩
      left_inv := by
        intro i
        obtain ⟨hlen, hnd, hmem⟩ := h
        apply Fin.ext
        have hi : (i : ℕ) < l.length := by rw [hlen]; exact i.2
        simp only [List.getD_eq_getElem l 0 hi]
        have hmem2 : l[(i : ℕ)] ∈ l := List.getElem_mem hi
        have hidx : l.indexOf l[(i : ℕ)] < l.length := List.indexOf_lt_length.2 hmem2
        have hget : l[l.indexOf l[(i : ℕ)]] = l[(i : ℕ)] := List.getElem_indexOf hidx
        exact (hnd.getElem_inj_iff).1 hget
      right_inv := by
        intro j
        obtain ⟨hlen, hnd, hmem⟩ := h
        apply Fin.ext
        have hsub : l.toFinset ⊆ Finset.range n := fun x hx =>
          Finset.mem_range.2 (hmem x (List.mem_toFinset.1 hx))
        have hcard : (Finset.range n).card ≤ l.toFinset.card := by
          rw [List.toFinset_card_of_nodup hnd, hlen, Finset.card_range]
        have hfin : l.toFinset = Finset.range n :=
          Finset.eq_of_subset_of_card_le hsub hcard
        have hj : (j : ℕ) ∈ l := by
          rw [← List.mem_toFinset, hfin]
          exact Finset.mem_range.2 j.2
        have hidx : l.indexOf (j : ℕ) < l.length := List.indexOf_lt_length.2 hj
        simp only [List.getD_eq_getElem l 0 hidx]
        exact List.getElem_indexOf hidx }
  else 1

/-- Euclidean algorithm with explicit structural fuel, so that it reduces
inside the kernel (the library gcd is well-founded and does not). -/
def natGcdFuel : ℕ → ℕ → ℕ → ℕ
  | 0, _, n => n
  | _ + 1, 0, n => n
  | fuel + 1, m + 1, n => natGcdFuel fuel (n % (m + 1)) (m + 1)

/-- Greatest common divisor (fuel m + 1 always suffices because the first
argument strictly decreases). -/
def natGcd (m n : ℕ) : ℕ := natGcdFuel (m + 1) m n

/-- Exact rational numbers in canonical lowest terms with positive
denominator, with kernel-reducible arithmetic (used in place of the
library rationals, whose operations do not reduce under decide).  They
model Sage's exact rational field QQ. -/
structure QQ where
  num : ℤ
  den : ℤ
deriving DecidableEq, Repr

/-- The canonical representative of n/d (d nonzero in every use). -/
def qqMk (n d : ℤ) : QQ :=
  if d = 0 then ⟨0, 1⟩
  else
    let s : ℤ := if d < 0 then -1 else 1
    let n1 := s * n
    let d1 := s * d
    let g : ℤ := (natGcd n1.natAbs d1.natAbs : ℕ)
    if g = 0 then ⟨0, 1⟩ else ⟨n1 / g, d1 / g⟩

instance : Zero QQ := ⟨⟨0, 1⟩⟩

instance : One QQ := ⟨⟨1, 1⟩⟩

instance : Add QQ := ⟨fun a b => qqMk (a.num * b.den + b.num * a.den) (a.den * b.den)⟩

instance : Mul QQ := ⟨fun a b => qqMk (a.num * b.num) (a.den * b.den)⟩

instance : Neg QQ := ⟨fun a => ⟨-a.num, a.den⟩⟩

/-- Subtraction of canonical rationals. -/
def QQ.sub (a b : QQ) : QQ := a + (-b)

/-- Embedding of an integer. -/
def QQ.ofInt (n : ℤ) : QQ := ⟨n, 1⟩

/-- Values a + b·ω (ω = exp(2πi/3)) of the real-quadratic slice of the
universal cyclotomic field that the concrete character tables of this file
live in; models the UCF elements of cover.py line 599 with their addition,
multiplication, complex conjugation and exact realness test. -/
structure Qw where
  re : QQ
  wi : QQ
deriving DecidableEq, Repr

instance : Zero Qw := ⟨⟨0, 0⟩⟩

instance : One Qw := ⟨⟨1, 0⟩⟩

instance : Add Qw := ⟨fun x y => ⟨x.re + y.re, x.wi + y.wi⟩⟩

instance : Neg Qw := ⟨fun x => ⟨-x.re, -x.wi⟩⟩

/-- Multiplication using ω² = -1 - ω. -/
instance : Mul Qw := ⟨fun x y =>
  ⟨(x.re * y.re).sub (x.wi * y.wi),
    ((x.re * y.wi + x.wi * y.re)).sub (x.wi * y.wi)⟩⟩

/-- Complex conjugation: the conjugate of ω is ω² = -1 - ω
(models UCF .conjugate()). -/
def Qw.conj (x : Qw) : Qw := ⟨x.re.sub x.wi, -x.wi⟩

/-- Exact realness test (models UCF .is_real()): a + b·ω is real iff b = 0.
The ω coordinate of every value handled here is kept in canonical form, so
realness is the literal zero test. -/
def Qw.isReal (x : Qw) : Bool := decide (x.wi = (0 : QQ))

/-- Embedding of an exact rational scalar (degree/order coefficients). -/
def Qw.ofQQ (q : QQ) : Qw := ⟨q, 0⟩

/-- Embedding of an integer. -/
def Qw.ofInt (n : ℤ) : Qw := ⟨QQ.ofInt n, 0⟩

/-- The primitive third root of unity ω. -/
def Qw.omega : Qw := ⟨0, 1⟩

/-- The conjugate root ω². -/
def Qw.omega2 : Qw := ⟨-1, -1⟩

/-- A twin-table entry of the base permutation: either a position on the
other side (stored as a plain int in template.py) or an explicit
(side, position) pair. -/
def TwinEntry := Sum ℕ (ℕ × ℕ)

/-- Embedded data model of cover.py's PermutationCover together with the
read-only views of its base permutation that the class consumes.
Fields degreeCover and permutCover are the attributes _degree_cover and
_permut_cover; the remaining fields carry the base-permutation data
(an external collaborator, repository code outside src/):
baseDiagramSigned models base.interval_diagram(glue_ends=False, sign=True)
as a list of orbits of (label, side) pairs; baseDiagramGlued models
base.interval_diagram(glue_ends=True, sign=True), whose orbit entries are
groups (glued pairs appear as one group of two letters, plain entries as a
singleton group), so that an orbit's Python len() is the number of groups;
baseKindIET is the isinstance(_base, PermutationIET) tag; baseTop/baseBot
are the two rows of alphabet ranks; baseTwin is base._twin;
baseTwinToIndex is the truthiness table _twins_and_orientation()[1]. -/
structure PermutationCover where
  degreeCover : ℕ
  alphabetSize : ℕ
  permutCover : List (List ℕ)
  baseDiagramSigned : List (List (ℕ × Bool))
  baseDiagramGlued : List (List (List (ℕ × Bool)))
  baseKindIET : Bool
  baseTop : List ℕ
  baseBot : List ℕ
  baseTwin : List (List TwinEntry)
  baseTwinToIndex : List (List Bool)

/-- Well-formedness of the embedded cover: one monodromy list per label,
each a valid permutation of the copies (the part of the constructor
contract that Sage enforces when the permutation lists are used). -/
def ValidCover (c : PermutationCover) : Prop :=
  c.permutCover.length = c.alphabetSize ∧
    ∀ l ∈ c.permutCover, IsPermList c.degreeCover l

instance (c : PermutationCover) : Decidable (ValidCover c) :=
  inferInstanceAs (Decidable (_ ∧ _))

/-- covering_data(label, list=True): the raw permutation list of a label
(cover.py line 126). -/
def coveringData (c : PermutationCover) (lab : ℕ) : List ℕ :=
  c.permutCover.getD lab []

/-- rel_homology_generator (cover.py lines 658-663): the ordered basis
[(d, a) for d in range(degree) for a in alphabet]. -/
def relHomologyGenerator (c : PermutationCover) : List (ℕ × ℕ) :=
  (List.range c.degreeCover).flatMap
    (fun d => (List.range c.alphabetSize).map (fun a => (d, a)))

/-- rel_homology_index (cover.py lines 665-678): d·|alphabet| + rank(a). -/
def relHomologyIndex (c : PermutationCover) (d a : ℕ) : ℕ :=
  d * c.alphabetSize + a

/-- One letter step of the copy dynamics (cover.py line 152): crossing
label x.1 on its signed side x.2 maps the copy d to perm(label).index(d)
when the sign is set and to perm(label)[d] otherwise. -/
def coverStep (perms : List (List ℕ)) (x : ℕ × Bool) (d : ℕ) : ℕ :=
  let l := perms.getD x.1 []
  if x.2 then l.indexOf d else l.getD d 0

/-- One full pass of a base singularity orbit (the inner for-loop of
interval_diagram, cover.py lines 149-155): the letter steps composed left
to right. -/
def passOnce (perms : List (List ℕ)) (orbit : List (ℕ × Bool)) (d : ℕ) : ℕ :=
  orbit.foldl (fun d x => coverStep perms x d) d

/-- The same letter step as a permutation of Fin n: forward monodromy on an
unsigned crossing, its inverse on a signed one.  This is also exactly the
factor q (respectively q.inverse()) that profile() multiplies in
(cover.py lines 240-243). -/
def wordPerm (n : ℕ) (perms : List (List ℕ)) (x : ℕ × Bool) : Equiv.Perm (Fin n) :=
  let q := listToPermOr1 n (perms.getD x.1 [])
  if x.2 then q⁻¹ else q

/-- The permutation accumulated along a word of letters.  Sage multiplies
permutations left-to-right ((p*q)(x) = q(p(x))), so the loop p = p*q of
profile() composes each new factor on the outside; in Equiv.Perm
convention that is q * p. -/
def orbitPermOf (n : ℕ) (perms : List (List ℕ)) (letters : List (ℕ × Bool)) :
    Equiv.Perm (Fin n) :=
  letters.foldl (fun p x => wordPerm n perms x * p) 1

/-- The pass-start copies visited by the inner while-True loop of
interval_diagram started at dInit (cover.py lines 148-157): the current
copy is recorded, a full pass is applied, and the loop stops when the pass
returns to dInit.  The fuel argument bounds the number of passes; fuel =
degree always suffices (theorem for claim C9). -/
def traceCopies (F : ℕ → ℕ) (dInit : ℕ) : ℕ → ℕ → List ℕ
  | _, 0 => []
  | d, fuel + 1 => d :: (if F d = dInit then [] else traceCopies F dInit (F d) fuel)

/-- The outer while cover_copies loop of interval_diagram (cover.py lines
143-157): repeatedly pop a pending copy, trace its cycle under the full
pass map, and drop the visited copies from the pending set.  Python's set
pop order is unspecified; the pending copies are modelled as an ascending
list popped from the head, which does not affect which cycles are
produced.  fuel = degree suffices since every round removes at least the
popped copy. -/
def coverOrbitsAux (F : ℕ → ℕ) (deg : ℕ) : List ℕ → ℕ → List (List ℕ)
  | _, 0 => []
  | [], _ => []
  | c :: rest, fuel + 1 =>
      let cyc := traceCopies F c c deg
      cyc :: coverOrbitsAux F deg (rest.filter (fun x => decide (x ∉ cyc))) fuel

/-- The cycles of pass-start copies produced for one base singularity
orbit. -/
def coverOrbits (F : ℕ → ℕ) (deg : ℕ) : List (List ℕ) :=
  coverOrbitsAux F deg (List.range deg) deg

/-- The triples (label, side, copy) appended during one pass started at
copy d (cover.py line 151, with sign=True). -/
def passTriples (perms : List (List ℕ)) (orbit : List (ℕ × Bool)) (d : ℕ) :
    List (ℕ × Bool × ℕ) :=
  (orbit.foldl
    (fun acc x => (acc.1 ++ [(x.1, x.2, acc.2)], coverStep perms x acc.2))
    ([], d)).1

/-- The singularity assembled from one traced cycle: the triples of the
successive passes concatenated (the code appends them to one list while
tracing; here the pass-start copies are computed first and the passes
replayed from them, which yields the same list). -/
def singularityOfCycle (perms : List (List ℕ)) (orbit : List (ℕ × Bool))
    (cyc : List ℕ) : List (ℕ × Bool × ℕ) :=
  (cyc.map (passTriples perms orbit)).flatten

/-- interval_diagram(glue_ends=False, sign=True) of the cover (cover.py
lines 134-161): for every base orbit, one singularity per traced cycle of
copies. -/
def intervalDiagram (c : PermutationCover) : List (List (ℕ × Bool × ℕ)) :=
  c.baseDiagramSigned.flatMap (fun orbit =>
    (coverOrbits (passOnce c.permutCover orbit) c.degreeCover).map
      (singularityOfCycle c.permutCover orbit))

/-- Flattening of a glued orbit (cover.py lines 233-238: grouped entries
are extended into the flat orbit, plain ones appended; in the embedding
every entry is a group, singletons included, so flattening is
concatenation). -/
def flattenGlued (o : List (List (ℕ × Bool))) : List (ℕ × Bool) := o.flatten

/-- Cycle type of a permutation of Fin n including its fixed points, the
way Sage's Permutation.cycle_type() reports it (a partition of n).
Modelled from the spec: cycle_type is a Sage collaborator; it is embedded
as the mathematical cycle type (Mathlib's cycleType lists the cycles of
length at least 2, so the fixed points are appended as parts equal 1). -/
def fullCycleType {n : ℕ} (σ : Equiv.Perm (Fin n)) : Multiset ℕ :=
  σ.cycleType + Multiset.replicate (n - σ.support.card) 1

/-- profile() (cover.py lines 204-247): for every glued base orbit, the
monodromy word of its flattened letters is composed, and every cycle of
length ℓ of the resulting permutation contributes an entry len(orbit)·ℓ
(len(orbit) counts the groups, not the flattened letters).  Sage sorts the
entries into a Partition; the embedding returns the multiset, which
carries the same sum, size and membership. -/
def profile (c : PermutationCover) : Multiset ℕ :=
  (c.baseDiagramGlued.map (fun o =>
    (fullCycleType (orbitPermOf c.degreeCover c.permutCover (flattenGlued o))).map
      (fun ℓ => o.length * ℓ))).sum

/-- genus() (cover.py lines 320-343): Integer((sum(p) - 2*len(p))/4 + 1).
The Sage Integer() coercion raises when the rational is not integral; the
embedding returns none in that case. -/
def genusZ (c : PermutationCover) : Option ℤ :=
  let e : ℤ := ((profile c).sum : ℤ) - 2 * (Multiset.card (profile c) : ℤ)
  if 4 ∣ e then some (e / 4 + 1) else none

/-- The inverting letters of the base (cover.py lines 284-286): the
symmetric difference of the rank sets of the two rows. -/
def invLetters (c : PermutationCover) : List ℕ :=
  ((c.baseTop.filter (fun x => decide (x ∉ c.baseBot))) ++
    (c.baseBot.filter (fun x => decide (x ∉ c.baseTop)))).dedup

/-- One relaxation of the sign-propagation loop body (cover.py lines
290-297) over a single inverting letter j: state is (signs, todo, ok). -/
def propagateLetter (perms : List (List ℕ)) (i : ℕ) (s : ℤ)
    (st : List (Option ℤ) × List ℕ × Bool) (j : ℕ) :
    List (Option ℤ) × List ℕ × Bool :=
  if st.2.2 = false then st
  else
    let ii := (perms.getD j []).getD i 0
    match (st.1.getD ii none) with
    | none => (st.1.set ii (some (-s)), st.2.1 ++ [ii], true)
    | some v => if v ≠ -s then (st.1, st.2.1, false) else st

/-- The breadth-first sign propagation of is_orientable (cover.py lines
281-298).  Python's todo.pop() removes the last element.  The fuel bounds
the number of loop iterations; each copy enters todo at most once, so
degree + 1 iterations always suffice, and the fuel-exhausted default true
is never reached on valid data. -/
def orientPropagate (perms : List (List ℕ)) (inv : List ℕ) :
    List (Option ℤ) → List ℕ → ℕ → Bool
  | _, [], _ => true
  | _, _ :: _, 0 => true
  | signs, t :: ts, fuel + 1 =>
      let i := (t :: ts).getLast (List.cons_ne_nil t ts)
      let todo0 := (t :: ts).dropLast
      let s := (signs.getD i none).getD 1
      let st := inv.foldl (propagateLetter perms i s) (signs, todo0, true)
      if st.2.2 = false then false
      else orientPropagate perms inv st.1 st.2.1 fuel

/-- is_orientable() (cover.py lines 249-298): true outright when the base
is of the PermutationIET kind; otherwise false when some profile entry is
odd; otherwise the result of the sign propagation seeded with sign +1 on
copy 0. -/
def isOrientable (c : PermutationCover) : Bool :=
  if c.baseKindIET then true
  else if Multiset.countP (fun x => x % 2 = 1) (profile c) ≠ 0 then false
  else
    orientPropagate c.permutCover (invLetters c)
      ((List.replicate c.degreeCover (none : Option ℤ)).set 0 (some 1)) [0]
      (c.degreeCover + 1)

/-- A row of zeros of the given width. -/
def zeroRow (n : ℕ) : List ℤ := List.replicate n 0

/-- One row of the border-incidence matrix built inside
homology_cycle_matrix (cover.py lines 189-201), for the pair (copy d,
label a): +1 at the first singularity containing the triple (a, 0, d), -1
at the first singularity containing (a, 1, d), overwritten to 0 when both
land at the same index.  findIdx returns the number of singularities when
there is no match, exactly like the scanning while-loops i and j; the
Python code would then assign out of range (an IndexError), which the
embedding models with List.set's out-of-range no-op. -/
def borderRowFor (sing : List (List (ℕ × Bool × ℕ))) (a d : ℕ) : List ℤ :=
  let nbSing := sing.length
  let i := sing.findIdx (fun s => s.any (fun t => decide (t = (a, false, d))))
  let j := sing.findIdx (fun s => s.any (fun t => decide (t = (a, true, d))))
  let r := ((zeroRow nbSing).set i 1).set j (-1)
  if i = j ∧ i < nbSing then r.set j 0 else r

/-- The full border-incidence matrix of homology_cycle_matrix: one row per
(copy, label) pair, copies outermost (cover.py lines 189-201). -/
def bordersMatrix (c : PermutationCover) : List (List ℤ) :=
  let sing := intervalDiagram c
  (List.range c.degreeCover).flatMap (fun d =>
    (List.range c.alphabetSize).map (fun a => borderRowFor sing a d))

/-- Width (column count) of a list-of-rows matrix. -/
def matWidth (M : List (List ℤ)) : ℕ := (M.headD []).length

/-- Scale a row by a scalar. -/
def scaleRow (q : ℤ) (r : List ℤ) : List ℤ := r.map (fun x => q * x)

/-- Pointwise sum of two rows (rows of equal length throughout this file). -/
def vecAdd (u v : List ℤ) : List ℤ := List.zipWith (fun a b => a + b) u v

/-- The product v · M of a row vector with a matrix, as the v-weighted sum
of the rows of M, padded to the given width. -/
def rowDotMat (v : List ℤ) (M : List (List ℤ)) (w : ℕ) : List ℤ :=
  (List.zipWith scaleRow v M).foldl vecAdd (zeroRow w)

/-- Modelled from the spec: Sage's Matrix(...).left_kernel().matrix() is
an external exact linear-algebra collaborator; its contract is that every
row of the returned matrix left-annihilates the input matrix (the spec's
"exact basis of their left null space"). -/
def IsLeftKernelExtractor (K : List (List ℤ) → List (List ℤ)) : Prop :=
  ∀ M : List (List ℤ), ∀ v ∈ K M, rowDotMat v M (matWidth M) = zeroRow (matWidth M)

/-- homology_cycle_matrix (cover.py lines 182-202): the left-kernel basis
of the border-incidence matrix, computed by the external extractor K. -/
def homologyCycleMatrix (c : PermutationCover)
    (K : List (List ℤ) → List (List ℤ)) : List (List ℤ) :=
  K (bordersMatrix c)

/-- homology_boundary_matrix (cover.py lines 163-180): one row per copy;
for every side i and position j, the occurrences flagged by
twin_to_index[i][j] contribute +1 at index(d, label) and the others -1 at
index(monodromy[label](d), label). -/
def homologyBoundaryMatrix (c : PermutationCover) : List (List ℤ) :=
  (List.range c.degreeCover).map (fun d =>
    ([(0, c.baseTop), (1, c.baseBot)] : List (ℕ × List ℕ)).foldl
      (fun border side =>
        (List.range side.2.length).foldl
          (fun border j =>
            let lab := side.2.getD j 0
            if (c.baseTwinToIndex.getD side.1 []).getD j false then
              border.set (relHomologyIndex c d lab) 1
            else
              border.set
                (relHomologyIndex c ((coveringData c lab).getD d 0) lab) (-1))
          border)
      (zeroRow (c.degreeCover * c.alphabetSize)))

/-- Error messages of lyapunov_exponents_H_plus (cover.py lines 465-469). -/
def msgVectors : String := "the number of vectors must be positive"

/-- Error message for a non-positive experiment count. -/
def msgExperiments : String := "the number of experiments must be positive"

/-- Error message for a non-positive iteration count. -/
def msgIterations : String := "the number of iterations must be positive"

/-- Error message for a monodromy table of the wrong length. -/
def msgSigma : String := "you must give a permutation for each interval"

/-- The argument record of one invocation of the external numeric engine
lyapunov_exponents.lyapunov_exponents_H_plus_cover (cover.py lines
516-518). -/
structure EngineArgs where
  gp : List ℕ
  k : ℕ
  twin : List ℕ
  sigma : List ℕ
  nbExperiments : ℤ
  nbIterations : ℤ
  dimensions : List ℤ
  projections : Option (List ℚ)
  lengths : Option (List ℤ)
  verbose : Bool
deriving DecidableEq

/-- Observable outcome of lyapunov_exponents_H_plus up to and including
the engine invocation: an InvalidArgumentError (ValueError), the immediate
empty result for nb_vectors == 0, or the assembled engine call. -/
inductive LyapOutcome where
  | invalidArgument (msg : String)
  | emptyResult
  | engineCall (args : EngineArgs)
deriving DecidableEq

/-- The flat occurrence index convert((i,j)) = j + i*k (cover.py lines
472-474). -/
def convertIdx (k i j : ℕ) : ℕ := j + i * k

/-- The occurrence label table gp (cover.py lines 481-483): since
convert((0,j)) = j and convert((1,j)) = j + k with k = len(self[0]), the
table is the top row of ranks followed by the bottom row. -/
def gpTable (c : PermutationCover) : List ℕ := c.baseTop ++ c.baseBot

/-- The occurrence twin table (cover.py lines 484-487): an int twin is a
position on the other side, a pair twin is converted directly. -/
def twinTable (c : PermutationCover) : List ℕ :=
  let k := c.baseTop.length
  let resolve : ℕ → TwinEntry → ℕ := fun i e =>
    match e with
    | Sum.inl t => convertIdx k (1 - i) t
    | Sum.inr p => convertIdx k p.1 p.2
  ((c.baseTwin.getD 0 []).map (resolve 0)) ++ ((c.baseTwin.getD 1 []).map (resolve 1))

/-- Validation and engine-call assembly of lyapunov_exponents_H_plus
(cover.py lines 444-518), with nb_vectors already resolved (the genus()
default of line 447) and the isotypic_decomposition branch omitted: that
branch only replaces the dimensions list and the projections array, and
both paths reach the same engine call of line 516, whose ninth argument is
the literal None annotated "No lengths for random length".  The checks are
embedded in source order: negative vector count, the empty early return,
non-positive experiment and iteration counts, and the divisibility of the
flattened monodromy table length by the interval count len(self) (the
alphabet size). -/
def lyapunovExponentsHPlus (c : PermutationCover)
    (nbVectors nbExperiments nbIterations : ℤ)
    (lengths : Option (List ℤ)) (verbose : Bool) : LyapOutcome :=
  let n := c.alphabetSize
  let sigma := c.permutCover.flatten
  if nbVectors < 0 then LyapOutcome.invalidArgument msgVectors
  else if nbVectors = 0 then LyapOutcome.emptyResult
  else if nbExperiments ≤ 0 then LyapOutcome.invalidArgument msgExperiments
  else if nbIterations ≤ 0 then LyapOutcome.invalidArgument msgIterations
  else if sigma.length % n ≠ 0 then LyapOutcome.invalidArgument msgSigma
  else
    LyapOutcome.engineCall
      { gp := gpTable c
        k := c.baseTop.length
        twin := twinTable c
        sigma := sigma
        nbExperiments := nbExperiments
        nbIterations := nbIterations
        dimensions := [nbVectors]
        projections := none
        lengths := none
        verbose := verbose }

/-- The lengths argument handed to the numeric engine by an outcome (none
when no engine call happens). -/
def outcomeLengths : LyapOutcome → Option (List ℤ)
  | LyapOutcome.engineCall a => a.lengths
  | _ => none

/-- Output of the external group-theory provider (libgap) as consumed by
_characters (cover.py lines 597-608): the group order, the irreducible
character values indexed by group element (line 604 samples
irr_characters[i][j] for j in xrange(G_order)), the character degrees, and
the 1-indexed ListPerm action of each group element on the copies. -/
structure GroupData where
  gOrder : ℕ
  irrChars : List (List Qw)
  degrees : List ℕ
  elementPerms1 : List (List ℕ)

/-- The tuples built on cover.py line 604: every irreducible character
sampled on the element indices 0, ..., G_order - 1. -/
def characterSet (g : GroupData) : List (List Qw) :=
  g.irrChars.map (fun chi => (List.range g.gOrder).map (fun j => chi.getD j 0))

/-- The real-character extraction loop (cover.py lines 610-621).  The
Python set is modelled as a list processed from the head (set iteration
order is unspecified); remove is List.erase.  A character with a non-real
value has its conjugate removed and the merged row
[chi[j] + chi[j].conjugate() for j in xrange(n_characters)] emitted --
note the source iterates j over n_characters (the number of irreducible
characters), not over G_order.  A real character is emitted unchanged.
The loop also keeps a counter i that is incremented once unconditionally
and once more in the merging branch; that counter is dead (the returned
count is len(real_character_table)), so it is not carried here. -/
def realCharacterFoldAux (nChars : ℕ) : ℕ → List (List Qw) → List (List Qw)
  | _, [] => []
  | 0, _ :: _ => []
  | fuel + 1, chi :: rest =>
    if chi.any (fun x => ! x.isReal) then
      ((List.range nChars).map (fun j => (chi.getD j 0) + (chi.getD j 0).conj)) ::
        realCharacterFoldAux nChars fuel (rest.erase (chi.map Qw.conj))
    else
      chi :: realCharacterFoldAux nChars fuel rest

/-- The loop of cover.py lines 612-621 with the fuel instantiated to the
size of the character set: each round removes the popped character (and
possibly its conjugate), so the remaining set is always shorter than the
fuel and the fuel-exhausted branch is never taken. -/
def realCharacterFold (nChars : ℕ) (l : List (List Qw)) : List (List Qw) :=
  realCharacterFoldAux nChars l.length l

/-- The cached 5-tuple returned by _characters (cover.py line 625). -/
structure CharData where
  table : List (List Qw)
  degrees : List ℕ
  gOrder : ℕ
  perms : List (List ℕ)
  nReal : ℕ

/-- _characters (cover.py lines 574-625): fold the sampled character set
into real characters, keep the degrees and order as provided, shift the
element permutations to 0-indexing, and report the length of the real
table as n_characters. -/
def charactersOf (g : GroupData) : CharData :=
  let table := realCharacterFold g.irrChars.length (characterSet g)
  { table := table
    degrees := g.degrees
    gOrder := g.gOrder
    perms := g.elementPerms1.map (fun x => x.map (fun i => i - 1))
    nReal := table.length }

/-- Python list indexing with wraparound for negative indices, as hit by
automorphism_group_permutation()[t][d-1] at d = 0 (cover.py line 701):
index -1 reads the last element. -/
def pyGet (l : List ℕ) (k : ℤ) : ℕ :=
  if k < 0 then l.getD (l.length - (-k).toNat) 0 else l.getD k.toNat 0

/-- Entry read of a list-of-rows Qw matrix. -/
def getEntry (M : List (List Qw)) (i j : ℕ) : Qw := (M.getD i []).getD j 0

/-- Entry update of a list-of-rows Qw matrix. -/
def setEntry (M : List (List Qw)) (i j : ℕ) (v : Qw) : List (List Qw) :=
  M.set i ((M.getD i []).set j v)

/-- isotypic_projection_matrix (cover.py lines 680-703): a zero matrix of
size |rel_homology_generator| accumulates, for every basis pair (d, a) and
every element index t, the value coeff * char[t] at row
d*|alphabet| + rank(a) and column
automorphism_group_permutation()[t][d-1]*|alphabet| + rank(a), with
coeff = character_degree[i]/automorphism_group_order and Python's
wraparound semantics for the index d-1 at d = 0. -/
def isotypicProjectionMatrix (c : PermutationCover) (cd : CharData)
    (iChar : ℕ) : List (List Qw) :=
  let m := c.alphabetSize
  let N := c.degreeCover * m
  let char := cd.table.getD iChar []
  let coeff : Qw := Qw.ofQQ (qqMk (cd.degrees.getD iChar 0 : ℤ) (cd.gOrder : ℤ))
  (relHomologyGenerator c).foldl
    (fun res da =>
      (List.range cd.gOrder).foldl
        (fun res t =>
          let i := da.1 * m + da.2
          let j := pyGet (cd.perms.getD t []) ((da.1 : ℤ) - 1) * m + da.2
          setEntry res i j (getEntry res i j + coeff * char.getD t 0))
        res)
    (List.replicate N (List.replicate N (0 : Qw)))

/-- Modelled from the spec: the projector entry asserted by claim C2 (the
docstring formula of isotypic_projection_matrix) -- zero across distinct
labels, and for a = a' the sum of (degree_i/|G|)·char_i(t) over exactly
those element indices t whose 0-indexed permutation action sends d to d'. -/
def specProjectionEntry (cd : CharData) (iChar d a dp ap : ℕ) : Qw :=
  if a ≠ ap then 0
  else
    ((List.range cd.gOrder).filter
        (fun t => (cd.perms.getD t []).getD d 0 == dp)).foldl
      (fun acc t =>
        acc + Qw.ofQQ (qqMk (cd.degrees.getD iChar 0 : ℤ) (cd.gOrder : ℤ)) *
          ((cd.table.getD iChar []).getD t 0))
      0

/-- Modelled from the spec: the full projector matrix assembled from the
claimed entry formula, for comparison with the code's matrix. -/
def specProjectionMatrix (c : PermutationCover) (cd : CharData) (iChar : ℕ) :
    List (List Qw) :=
  (relHomologyGenerator c).map (fun da =>
    (relHomologyGenerator c).map (fun db =>
      specProjectionEntry cd iChar da.1 da.2 db.1 db.2))

/-- Width of a Qw matrix. -/
def matQwWidth (M : List (List Qw)) : ℕ := (M.headD []).length

/-- Qw matrix product (all matrices of this file are square lists of
rows). -/
def matMul (A B : List (List Qw)) : List (List Qw) :=
  A.map (fun r =>
    (List.range (matQwWidth B)).map (fun j =>
      (List.zipWith (fun x row => x * row.getD j 0) r B).foldl (fun a b => a + b) 0))

/-- Pointwise sum of two Qw matrices. -/
def matAdd (A B : List (List Qw)) : List (List Qw) :=
  List.zipWith (fun r s => List.zipWith (fun a b => a + b) r s) A B

/-- The identity Qw matrix of the given size. -/
def matId (n : ℕ) : List (List Qw) :=
  (List.range n).map (fun i => (List.range n).map (fun j => if i = j then 1 else 0))

/-- The labels (alphabet ranks) of all flattened letters of the glued base
diagram, with multiplicity. -/
def baseLetterLabels (c : PermutationCover) : List ℕ :=
  ((c.baseDiagramGlued.map flattenGlued).flatten).map Prod.fst

/-- The total length (group count) of all glued base orbits. -/
def baseOrbitLengthSum (c : PermutationCover) : ℕ :=
  (c.baseDiagramGlued.map List.length).sum

/-- Signed interval diagram of the base torus permutation a b / b a
(labels a = 0, b = 1): without end gluing the two endpoint chains are
separate orbits. -/
def torusDiagramSigned : List (List (ℕ × Bool)) :=
  [[(0, false), (1, true)], [(0, true), (1, false)]]

/-- Glued interval diagram of the torus base: one orbit made of two glued
groups (its Python len() is 2), flattening to the four letters a, b and
their signed second visits -- the composed monodromy word is the
commutator. -/
def torusDiagramGlued : List (List (List (ℕ × Bool))) :=
  [[[(0, false), (1, true)], [(0, true), (1, false)]]]

/-- Twin table of the torus base: every occurrence crosses sides. -/
def torusTwin : List (List TwinEntry) :=
  [[Sum.inr (1, 1), Sum.inr (1, 0)], [Sum.inr (0, 1), Sum.inr (0, 0)]]

/-- Degree-1 (trivial) cover of the torus permutation a b / b a: the
smallest well-formed cover, used to instantiate hypotheses concretely. -/
def tCover : PermutationCover :=
  { degreeCover := 1
    alphabetSize := 2
    permutCover := [[0], [0]]
    baseDiagramSigned := torusDiagramSigned
    baseDiagramGlued := torusDiagramGlued
    baseKindIET := true
    baseTop := [0, 1]
    baseBot := [1, 0]
    baseTwin := torusTwin
    baseTwinToIndex := [[false, false], [false, false]] }

/-- Degree-2 cover of the torus permutation a b / b a with monodromy
a -> (1,2), b -> identity: its deck group is the full symmetric group on
the 2 copies (the centralizer of the transposition in S2). -/
def c1Cover : PermutationCover :=
  { degreeCover := 2
    alphabetSize := 2
    permutCover := [[1, 0], [0, 1]]
    baseDiagramSigned := torusDiagramSigned
    baseDiagramGlued := torusDiagramGlued
    baseKindIET := true
    baseTop := [0, 1]
    baseBot := [1, 0]
    baseTwin := torusTwin
    baseTwinToIndex := [[false, false], [false, false]] }

/-- Provider data of the deck group S2 of c1Cover: order 2, elements
[(), (1,2)] as 1-indexed ListPerms, trivial and sign characters (both
real), degrees 1, 1. -/
def s2Data : GroupData :=
  { gOrder := 2
    irrChars := [[1, 1], [1, -1]]
    degrees := [1, 1]
    elementPerms1 := [[1, 2], [2, 1]] }

/-- Glued interval diagram of the generalized base permutation
a a b / b c c (labels a = 0, b = 1, c = 2): four orbits, each a single
group (two of the groups are glued pairs), consistent with the base being
the genus-0 stratum Q(-1^4) and with the doctest profiles [2,2,2,2] for
monodromies (1,2), (), (1,2) and [2,2,1,1,1,1] for (1,2), (1,2), (1,2)
(cover.py lines 221-223 and 307-311). -/
def aabccDiagramGlued : List (List (List (ℕ × Bool))) :=
  [[[(0, false)]], [[(2, true)]],
    [[(0, true), (1, false)]], [[(2, false), (1, true)]]]

/-- Signed (unglued) interval diagram of a a b / b c c: the glued pairs
split. -/
def aabccDiagramSigned : List (List (ℕ × Bool)) :=
  [[(0, false)], [(2, true)], [(0, true)], [(1, false)],
    [(2, false)], [(1, true)]]

/-- Twin table of a a b / b c c: the doubled letters pair within their own
side, b crosses. -/
def aabccTwin : List (List TwinEntry) :=
  [[Sum.inr (0, 1), Sum.inr (0, 0), Sum.inr (1, 0)],
    [Sum.inr (0, 2), Sum.inr (1, 2), Sum.inr (1, 1)]]

/-- The degree-2 cover of a a b / b c c with every monodromy the identity:
the disjoint double of the genus-0 base.  Its profile has eight entries
equal 1, so (sum - 2*len)/4 + 1 = (8 - 16)/4 + 1 = -1. -/
def badCover : PermutationCover :=
  { degreeCover := 2
    alphabetSize := 3
    permutCover := [[0, 1], [0, 1], [0, 1]]
    baseDiagramSigned := aabccDiagramSigned
    baseDiagramGlued := aabccDiagramGlued
    baseKindIET := false
    baseTop := [0, 0, 1]
    baseBot := [1, 2, 2]
    baseTwin := aabccTwin
    baseTwinToIndex := [[false, true, false], [false, false, true]] }

/-- The degree-3 cover of the torus with monodromies (1,2) and (1,3)
(doctest of cover.py line 214: profile [6]). -/
def tor3Cover : PermutationCover :=
  { c1Cover with degreeCover := 3, permutCover := [[1, 0, 2], [2, 1, 0]] }

/-- The degree-4 cover of the torus with monodromies (1,2,3) and (1,4)
(doctest of cover.py line 216: profile [6, 2]). -/
def tor4Cover : PermutationCover :=
  { c1Cover with degreeCover := 4, permutCover := [[1, 2, 0, 3], [3, 1, 2, 0]] }

/-- Scenario C of the spec: a a b / b c c covered with (1,2), (), (1,2)
(doctests of cover.py lines 221-222 and 328-329: profile [2,2,2,2],
genus 1). -/
def scenCCover : PermutationCover :=
  { badCover with permutCover := [[1, 0], [0, 1], [1, 0]] }

/-- Scenario D of the spec: the same base covered with (1,2), (1,2), (1,2)
(doctests of cover.py lines 310-311 and 330-331: profile [2,2,1,1,1,1]
giving stratum Q_0(0^2, -1^4), genus 0). -/
def scenDCover : PermutationCover :=
  { badCover with permutCover := [[1, 0], [1, 0], [1, 0]] }

/-- The twelve elements of A4 as 0-indexed image lists on {0,1,2,3},
ordered as: identity, the three double transpositions, the four 3-cycles
of the coset (0 1 2)·V, the four 3-cycles of the coset (0 2 1)·V. -/
def a4Elements : List (List ℕ) :=
  [[0, 1, 2, 3], [1, 0, 3, 2], [2, 3, 0, 1], [3, 2, 1, 0],
    [1, 2, 0, 3], [2, 1, 3, 0], [0, 3, 1, 2], [3, 0, 2, 1],
    [2, 0, 1, 3], [1, 3, 2, 0], [0, 2, 3, 1], [3, 1, 0, 2]]

/-- Composition f after g of 0-indexed image lists. -/
def composePermList (f g : List ℕ) : List ℕ := g.map (fun x => f.getD x 0)

/-- The left-regular permutation action of A4 on its own element list, as
1-indexed ListPerms: element g sends the index of h to the index of g∘h.
This realizes A4 as the centralizer (deck group) of its right-regular
monodromy image inside the symmetric group on 12 copies. -/
def a4ElementPerms1 : List (List ℕ) :=
  a4Elements.map (fun g =>
    a4Elements.map (fun h => a4Elements.indexOf (composePermList g h) + 1))

/-- Provider data of a deck group isomorphic to A4 (order 12, four
irreducible characters): the trivial character, the two complex-conjugate
linear characters through A4/V with values 1, ω, ω² constant on the listed
cosets, and the real 3-dimensional character. -/
def a4Data : GroupData :=
  { gOrder := 12
    irrChars :=
      [List.replicate 12 1,
        List.replicate 4 1 ++ List.replicate 4 Qw.omega ++
          List.replicate 4 Qw.omega2,
        List.replicate 4 1 ++ List.replicate 4 Qw.omega2 ++
          List.replicate 4 Qw.omega,
        [Qw.ofInt 3, Qw.ofInt (-1), Qw.ofInt (-1), Qw.ofInt (-1)] ++
          List.replicate 8 0]
    degrees := [1, 1, 1, 3]
    elementPerms1 := a4ElementPerms1 }

/-- The pointwise sum of the two conjugate linear A4 characters over all
twelve group elements -- what the spec says the merging step emits. -/
def a4MergedFull : List Qw :=
  (List.range 12).map (fun j =>
    ((characterSet a4Data).getD 1 []).getD j 0 +
      (((characterSet a4Data).getD 1 []).getD j 0).conj)

/-- A concrete left-kernel extractor used to instantiate the abstract
linear-algebra collaborator: it proposes the row [1, 1] and keeps it only
if it annihilates the matrix, so the extractor contract holds for every
input. -/
def kernelWitnessExtractor (M : List (List ℤ)) : List (List ℤ) :=
  [[1, 1]].filter (fun v => decide (rowDotMat v M (matWidth M) = zeroRow (matWidth M)))

/-- A cover whose flattened monodromy table length (1) is not a multiple
of its interval count (2): input for the last validation check. -/
def unevenCover : PermutationCover :=
  { degreeCover := 1
    alphabetSize := 2
    permutCover := [[0]]
    baseDiagramSigned := torusDiagramSigned
    baseDiagramGlued := torusDiagramGlued
    baseKindIET := true
    baseTop := [0, 1]
    baseBot := [1, 0]
    baseTwin := torusTwin
    baseTwinToIndex := [[false, false], [false, false]] }

/-- x lies on the forward orbit of c under the pass map F (claim C9's
"returns to c" relation: on a finite range with bijective F this is the
cycle equivalence). -/
def InOrbit (F : ℕ → ℕ) (c x : ℕ) : Prop := ∃ t : ℕ, F^[t] c = x

/- ------------------------------------------------------------------ -/
/- Theorems.                                                          -/
/- ------------------------------------------------------------------ -/

theorem kernelWitnessExtractor_contract : IsLeftKernelExtractor kernelWitnessExtractor := by
  intro M v hv
  unfold kernelWitnessExtractor at hv
  exact of_decide_eq_true (List.mem_filter.1 hv).2

/-- C4: lyapunov_exponents_H_plus raises InvalidArgumentError (a
ValueError) when nb_vectors < 0; when nb_vectors == 0 it returns the empty
result immediately, for every combination of the other arguments; and past
those two guards it raises when nb_experiments ≤ 0, when nb_iterations ≤ 0,
and when the flattened monodromy table length is not a multiple of the
interval count len(self).  The checks run in source order, so the later
conjuncts carry the earlier guards as hypotheses (as the claim's "for
every combination of the other arguments" parenthetical implies). -/
theorem C4_validation (c : PermutationCover) (nv ne ni : ℤ)
    (ls : Option (List ℤ)) (vb : Bool) :
    (nv < 0 → lyapunovExponentsHPlus c nv ne ni ls vb =
      LyapOutcome.invalidArgument msgVectors) ∧
    (nv = 0 → lyapunovExponentsHPlus c nv ne ni ls vb = LyapOutcome.emptyResult) ∧
    (0 < nv → ne ≤ 0 → lyapunovExponentsHPlus c nv ne ni ls vb =
      LyapOutcome.invalidArgument msgExperiments) ∧
    (0 < nv → 0 < ne → ni ≤ 0 → lyapunovExponentsHPlus c nv ne ni ls vb =
      LyapOutcome.invalidArgument msgIterations) ∧
    (0 < nv → 0 < ne → 0 < ni →
      c.permutCover.flatten.length % c.alphabetSize ≠ 0 →
      lyapunovExponentsHPlus c nv ne ni ls vb =
        LyapOutcome.invalidArgument msgSigma) := by
  refine ⟨?_, ?_, ?_, ?_, ?_⟩
  · intro h
    simp [lyapunovExponentsHPlus, h]
  · intro h
    subst h
    simp [lyapunovExponentsHPlus]
  · intro h1 h2
    have hA : ¬ nv < 0 := by omega
    have hB : ¬ nv = 0 := by omega
    simp [lyapunovExponentsHPlus, hA, hB, h2]
  · intro h1 h2 h3
    have hA : ¬ nv < 0 := by omega
    have hB : ¬ nv = 0 := by omega
    have hC : ¬ ne ≤ 0 := by omega
    simp [lyapunovExponentsHPlus, hA, hB, hC, h3]
  · intro h1 h2 h3 h4
    have hA : ¬ nv < 0 := by omega
    have hB : ¬ nv = 0 := by omega
    have hC : ¬ ne ≤ 0 := by omega
    have hD : ¬ ni ≤ 0 := by omega
    simp only [List.length_flatten] at h4
    simp [lyapunovExponentsHPlus, hA, hB, hC, hD, h4]

/-- Witness for C4: each validation branch exercised at concrete
arguments (the nb_vectors == 0 early return fires even with invalid
experiment and iteration counts). -/
theorem C4_validation_witness :
    lyapunovExponentsHPlus tCover (-1) 5 5 none false =
      LyapOutcome.invalidArgument msgVectors ∧
    lyapunovExponentsHPlus tCover 0 (-7) (-7) (some [3]) true =
      LyapOutcome.emptyResult ∧
    lyapunovExponentsHPlus tCover 2 0 5 none false =
      LyapOutcome.invalidArgument msgExperiments ∧
    lyapunovExponentsHPlus tCover 2 5 0 none false =
      LyapOutcome.invalidArgument msgIterations ∧
    lyapunovExponentsHPlus unevenCover 1 5 5 none false =
      LyapOutcome.invalidArgument msgSigma :=
  ⟨(C4_validation tCover (-1) 5 5 none false).1 (by decide),
    (C4_validation tCover 0 (-7) (-7) (some [3]) true).2.1 rfl,
    (C4_validation tCover 2 0 5 none false).2.2.1 (by decide) (by decide),
    (C4_validation tCover 2 5 0 none false).2.2.2.1 (by decide) (by decide) (by decide),
    (C4_validation unevenCover 1 5 5 none false).2.2.2.2 (by decide) (by decide)
      (by decide) (by decide)⟩

/-- C5 (code_bug exhibit): the engine invocation of cover.py line 516
passes the literal None in the lengths slot (comment "No lengths for
random length"), so the caller's lengths argument never reaches the
engine; in particular the call assembled for lengths = [1, 2, 3] still
carries none. -/
theorem C5_lengths_not_forwarded :
    (∀ (c : PermutationCover) (nv ne ni : ℤ) (ls : Option (List ℤ)) (vb : Bool),
      outcomeLengths (lyapunovExponentsHPlus c nv ne ni ls vb) = none) ∧
    lyapunovExponentsHPlus tCover 1 100 32768 (some [1, 2, 3]) false =
      LyapOutcome.engineCall
        { gp := [0, 1, 1, 0]
          k := 2
          twin := [3, 2, 1, 0]
          sigma := [0, 0]
          nbExperiments := 100
          nbIterations := 32768
          dimensions := [1]
          projections := none
          lengths := none
          verbose := false } := by
  constructor
  · intro c nv ne ni ls vb
    simp only [lyapunovExponentsHPlus]
    split_ifs <;> rfl
  · rfl

/-- C8: every row of homology_cycle_matrix lies in the left null space of
the border-incidence matrix it is extracted from -- the row composed with
the boundary relations over the shared (copy, label) indexing gives the
zero vector.  The left-kernel computation is Sage's, consumed through its
contract. -/
theorem C8_cycle_rows_in_left_kernel (c : PermutationCover)
    (K : List (List ℤ) → List (List ℤ)) (hK : IsLeftKernelExtractor K) :
    ∀ v ∈ homologyCycleMatrix c K,
      rowDotMat v (bordersMatrix c) (matWidth (bordersMatrix c)) =
        zeroRow (matWidth (bordersMatrix c)) :=
  fun v hv => hK (bordersMatrix c) v hv

/-- Witness for C8: a concrete extractor satisfying the contract produces
the cycle row [1, 1] on the trivial torus cover, and that row annihilates
the concrete border matrix [[1, -1], [-1, 1]]. -/
theorem C8_cycle_rows_witness :
    IsLeftKernelExtractor kernelWitnessExtractor ∧
    [1, 1] ∈ homologyCycleMatrix tCover kernelWitnessExtractor ∧
    rowDotMat [1, 1] (bordersMatrix tCover) (matWidth (bordersMatrix tCover)) =
      zeroRow (matWidth (bordersMatrix tCover)) :=
  ⟨kernelWitnessExtractor_contract, by decide,
    C8_cycle_rows_in_left_kernel tCover kernelWitnessExtractor
      kernelWitnessExtractor_contract [1, 1] (by decide)⟩

/-- C1 (code_bug exhibit): on the degree-2 torus cover with deck group S2,
the matrices produced by isotypic_projection_matrix are not idempotent and
do not sum to the identity on the relative homology basis: the column
index of line 701 is built from automorphism_group_permutation()[t][d-1],
which at d = 0 wraps around to the last entry (Python negative indexing),
shifting every row block; the docstring formula uses the action at d.  The
sign-character matrix squares to its negative-shifted mate and the two
matrices sum to the copy-swap matrix. -/
theorem C1_projectors_fail :
    (matMul (isotypicProjectionMatrix c1Cover (charactersOf s2Data) 1)
        (isotypicProjectionMatrix c1Cover (charactersOf s2Data) 1) ≠
      isotypicProjectionMatrix c1Cover (charactersOf s2Data) 1) ∧
    (matAdd (isotypicProjectionMatrix c1Cover (charactersOf s2Data) 0)
        (isotypicProjectionMatrix c1Cover (charactersOf s2Data) 1) ≠
      matId (relHomologyGenerator c1Cover).length) ∧
    (charactersOf s2Data).nReal = 2 := by decide

/-- C2 (code_bug exhibit): at the same cover, for the sign character the
diagonal entry at row = column = rel_homology_index(0, a0) computed by the
code is -1/2, while the entry demanded by the claim (and by the docstring
formula, summing coefficient times character over the elements t with
pi_t(0) = 0) is +1/2: the code reads the element action at index d-1 = -1,
i.e. at the last copy, instead of at d. -/
theorem C2_entry_mismatch :
    getEntry (isotypicProjectionMatrix c1Cover (charactersOf s2Data) 1)
        (relHomologyIndex c1Cover 0 0) (relHomologyIndex c1Cover 0 0) =
      Qw.ofQQ ⟨-1, 2⟩ ∧
    specProjectionEntry (charactersOf s2Data) 1 0 0 0 0 = Qw.ofQQ ⟨1, 2⟩ ∧
    Qw.ofQQ (⟨-1, 2⟩ : QQ) ≠ Qw.ofQQ ⟨1, 2⟩ := by decide

/-- C3 (code_bug exhibit): for an A4 deck group (order 12, four
irreducible characters, one complex-conjugate pair), the merging branch of
_characters emits [chi[j] + chi[j].conjugate() for j in
xrange(n_characters)] (cover.py line 617), a 4-entry truncation of the
12-entry pointwise sum of the conjugate pair; the reported real-character
count, on the other hand, is exactly the length of the real character
table, the dead counter i notwithstanding. -/
theorem C3_merged_character_truncated :
    (charactersOf a4Data).table.getD 1 [] =
      [Qw.ofInt 2, Qw.ofInt 2, Qw.ofInt 2, Qw.ofInt 2] ∧
    (charactersOf a4Data).table.getD 1 [] ≠ a4MergedFull ∧
    a4MergedFull.length = a4Data.gOrder ∧
    (charactersOf a4Data).table.length = 3 ∧
    (charactersOf a4Data).nReal = (charactersOf a4Data).table.length := by decide

/-- C10 (code_bug exhibit): on the same A4 provider data the second row of
character_table() has 4 entries while the group order is 12, so the claim
that every row has one entry per group element fails, and the accesses
char[t] for t up to G_order - 1 performed by isotypic_projection_matrix
fall out of bounds on the merged row (index 11 is not below the row
length). -/
theorem C10_character_row_too_short :
    ((charactersOf a4Data).table.getD 1 []).length = 4 ∧
    (charactersOf a4Data).gOrder = 12 ∧
    (11 < (charactersOf a4Data).gOrder ∧
      ¬ 11 < ((charactersOf a4Data).table.getD 1 []).length) ∧
    ¬ (∀ row ∈ (charactersOf a4Data).table,
        row.length = (charactersOf a4Data).gOrder) := by decide

theorem mem_listSum {α : Type} {l : List (Multiset α)} {x : α} (h : x ∈ l.sum) :
    ∃ s ∈ l, x ∈ s := by
  induction l with
  | nil => simp at h
  | cons a t ih =>
    rw [List.sum_cons] at h
    rcases Multiset.mem_add.1 h with h1 | h2
    · exact ⟨a, by simp, h1⟩
    · obtain ⟨s, hs, hxs⟩ := ih h2
      exact ⟨s, by simp [hs], hxs⟩

/-- C7: whenever is_orientable() returns true, every entry of profile() is
even.  In the general branch the code itself verifies this (it returns
false as soon as an odd entry exists); in the PermutationIET branch the
code returns true without inspecting the profile, and the evenness comes
from the base collaborator's glued orbits having even length for
orientable base permutations -- a property modelled from the spec (each
orientable profile entry k feeds (k-2)/2 to the Abelian stratum, so k is
even), carried as the hypothesis hIET. -/
theorem C7_orientable_profile_even (c : PermutationCover)
    (hIET : c.baseKindIET = true → ∀ o ∈ c.baseDiagramGlued, Even o.length) :
    isOrientable c = true → ∀ x ∈ profile c, Even x := by
  intro hor x hx
  by_cases hk : c.baseKindIET
  · unfold profile at hx
    obtain ⟨s, hs, hxs⟩ := mem_listSum hx
    obtain ⟨o, ho, rfl⟩ := List.mem_map.1 hs
    obtain ⟨ℓ, hℓ, rfl⟩ := Multiset.mem_map.1 hxs
    exact (hIET hk o ho).mul_right ℓ
  · unfold isOrientable at hor
    rw [if_neg hk] at hor
    by_cases hodd : Multiset.countP (fun x => x % 2 = 1) (profile c) ≠ 0
    · rw [if_pos hodd] at hor
      cases hor
    · push_neg at hodd
      have hno := Multiset.countP_eq_zero.1 hodd x hx
      simp only [] at hno
      have : x % 2 = 0 := by omega
      exact Nat.even_iff.2 this

/-- Witness for C7: the trivial torus cover is of the PermutationIET kind,
its single glued base orbit has even length 2, is_orientable returns true,
and the theorem delivers the evenness of every profile entry. -/
theorem C7_orientable_profile_even_witness :
    (tCover.baseKindIET = true → ∀ o ∈ tCover.baseDiagramGlued, Even o.length) ∧
    isOrientable tCover = true ∧
    (∀ x ∈ profile tCover, Even x) :=
  ⟨fun _ => by decide, rfl,
    C7_orientable_profile_even tCover (fun _ => by decide) rfl⟩

theorem foldl_mul_eq {G : Type} [Monoid G] {α : Type} (f : α → G) :
    ∀ (l : List α) (a : G),
      l.foldl (fun p x => f x * p) a = l.foldl (fun p x => f x * p) 1 * a := by
  intro l
  induction l with
  | nil => intro a; simp
  | cons x t ih =>
    intro a
    simp only [List.foldl_cons]
    rw [ih (f x * a), ih (f x * 1), mul_one, mul_assoc]

theorem sign_orbitPermOf (n : ℕ) (perms : List (List ℕ)) (letters : List (ℕ × Bool)) :
    Equiv.Perm.sign (orbitPermOf n perms letters) =
      (letters.map (fun x =>
        Equiv.Perm.sign (listToPermOr1 n (perms.getD x.1 [])))).prod := by
  induction letters with
  | nil => simp [orbitPermOf]
  | cons x t ih =>
    unfold orbitPermOf at ih ⊢
    simp only [List.foldl_cons, List.map_cons, List.prod_cons]
    rw [foldl_mul_eq (wordPerm n perms) t (wordPerm n perms x * 1), mul_one,
      Equiv.Perm.sign_mul, ih]
    have hw : Equiv.Perm.sign (wordPerm n perms x) =
        Equiv.Perm.sign (listToPermOr1 n (perms.getD x.1 [])) := by
      unfold wordPerm
      by_cases hx : x.2 <;> simp [hx]
    rw [hw, mul_comm]

theorem fullCycleType_sum {n : ℕ} (σ : Equiv.Perm (Fin n)) :
    (fullCycleType σ).sum = n := by
  unfold fullCycleType
  rw [Multiset.sum_add, Equiv.Perm.sum_cycleType, Multiset.sum_replicate, smul_eq_mul,
    mul_one]
  have hsupp : σ.support.card ≤ n := by simpa using Finset.card_le_univ σ.support
  omega

theorem card_le_sum_of_one_le {s : Multiset ℕ} (h : ∀ x ∈ s, 1 ≤ x) :
    Multiset.card s ≤ s.sum := by
  induction s using Multiset.induction_on with
  | empty => simp
  | cons a t ih =>
    simp only [Multiset.card_cons, Multiset.sum_cons]
    have h1 : 1 ≤ a := h a (Multiset.mem_cons_self a t)
    have h2 : Multiset.card t ≤ t.sum :=
      ih (fun x hx => h x (Multiset.mem_cons_of_mem hx))
    omega

theorem cycleType_card_le_support {n : ℕ} (σ : Equiv.Perm (Fin n)) :
    Multiset.card σ.cycleType ≤ σ.support.card := by
  rw [← Equiv.Perm.sum_cycleType]
  exact card_le_sum_of_one_le
    (fun x hx => le_trans (by norm_num) (Equiv.Perm.two_le_of_mem_cycleType hx))

theorem card_fullCycleType_le {n : ℕ} (σ : Equiv.Perm (Fin n)) :
    Multiset.card (fullCycleType σ) ≤ n := by
  have hsupp : σ.support.card ≤ n := by simpa using Finset.card_le_univ σ.support
  have hk := cycleType_card_le_support σ
  unfold fullCycleType
  rw [Multiset.card_add, Multiset.card_replicate]
  omega

theorem sign_fullCycleType {n : ℕ} (σ : Equiv.Perm (Fin n)) :
    Equiv.Perm.sign σ = (-1 : ℤˣ) ^ (n - Multiset.card (fullCycleType σ)) := by
  have hsupp : σ.support.card ≤ n := by simpa using Finset.card_le_univ σ.support
  have hk := cycleType_card_le_support σ
  have hcard : n - Multiset.card (fullCycleType σ) =
      σ.support.card - Multiset.card σ.cycleType := by
    unfold fullCycleType
    rw [Multiset.card_add, Multiset.card_replicate]
    omega
  rw [hcard, Equiv.Perm.sign_of_cycleType, Equiv.Perm.sum_cycleType]
  rw [show σ.support.card + Multiset.card σ.cycleType =
    σ.support.card - Multiset.card σ.cycleType + 2 * Multiset.card σ.cycleType from by
      omega]
  rw [pow_add, pow_mul]
  norm_num

theorem listSum_multiset_sum (l : List (Multiset ℕ)) :
    (l.sum).sum = (l.map Multiset.sum).sum := by
  induction l with
  | nil => simp
  | cons a t ih => simp [Multiset.sum_add, ih]

theorem listSum_multiset_card (l : List (Multiset ℕ)) :
    Multiset.card (l.sum) = (l.map (fun s => Multiset.card s)).sum := by
  induction l with
  | nil => simp
  | cons a t ih => simp [Multiset.card_add, ih]

theorem prod_map_neg_one_pow {α : Type} (f : α → ℕ) (l : List α) :
    (l.map (fun x => (-1 : ℤˣ) ^ f x)).prod = (-1 : ℤˣ) ^ (l.map f).sum := by
  induction l with
  | nil => simp
  | cons a t ih => simp [pow_add, ih]

theorem even_of_neg_one_pow_eq_one {m : ℕ} (h : (-1 : ℤˣ) ^ m = 1) : Even m := by
  by_contra hodd
  rw [Nat.not_even_iff_odd] at hodd
  rw [hodd.neg_one_pow] at h
  exact absurd h (by decide)

theorem flatten_map_map {α β γ : Type} (f : α → List β) (g : β → γ) (l : List α) :
    (l.map (fun o => (f o).map g)).flatten = ((l.map f).flatten).map g := by
  induction l with
  | nil => rfl
  | cons a t ih => simp [ih]

theorem sum_map_add_sub {α : Type} (l : List α) (f : α → ℕ) (d : ℕ)
    (h : ∀ a ∈ l, f a ≤ d) :
    (l.map f).sum + (l.map (fun a => d - f a)).sum = l.length * d := by
  induction l with
  | nil => simp
  | cons a t ih =>
    simp only [List.map_cons, List.sum_cons, List.length_cons]
    have h1 : f a ≤ d := h a (List.mem_cons_self a t)
    have h2 := ih (fun x hx => h x (List.mem_cons_of_mem a hx))
    rw [Nat.add_mul, one_mul]
    omega

theorem sign_product_orbits (c : PermutationCover)
    (hOcc : ∀ lab ∈ baseLetterLabels c, Even ((baseLetterLabels c).count lab)) :
    (c.baseDiagramGlued.map (fun o =>
      Equiv.Perm.sign
        (orbitPermOf c.degreeCover c.permutCover (flattenGlued o)))).prod = 1 := by
  set glab : ℕ → ℤˣ :=
    fun lab => Equiv.Perm.sign (listToPermOr1 c.degreeCover (c.permutCover.getD lab []))
    with hglab
  have h1 : c.baseDiagramGlued.map (fun o =>
      Equiv.Perm.sign (orbitPermOf c.degreeCover c.permutCover (flattenGlued o))) =
      c.baseDiagramGlued.map (fun o =>
        ((flattenGlued o).map (fun x => glab x.1)).prod) := by
    apply List.map_congr_left
    intro o _
    rw [sign_orbitPermOf]
  rw [h1]
  have h2 : (c.baseDiagramGlued.map (fun o =>
      ((flattenGlued o).map (fun x => glab x.1)).prod)).prod =
      (((c.baseDiagramGlued.map flattenGlued).flatten).map (fun x => glab x.1)).prod := by
    rw [← flatten_map_map flattenGlued (fun x => glab x.1) c.baseDiagramGlued,
      List.prod_flatten, List.map_map]
    rfl
  rw [h2]
  have h3 : ((c.baseDiagramGlued.map flattenGlued).flatten).map (fun x => glab x.1) =
      (baseLetterLabels c).map glab := by
    unfold baseLetterLabels
    rw [List.map_map]
    rfl
  rw [h3, Finset.prod_list_map_count]
  apply Finset.prod_eq_one
  intro lab hlab
  obtain ⟨m, hm⟩ := hOcc lab (List.mem_toFinset.1 hlab)
  rw [hm, pow_add]
  exact Int.units_mul_self _

/-- Helper: pull a constant factor out of a mapped sum. -/
theorem sum_map_mul_const {α : Type} (l : List α) (f : α → ℕ) (d : ℕ) :
    (l.map (fun a => f a * d)).sum = (l.map f).sum * d := by
  induction l with
  | nil => simp
  | cons a t ih => simp [ih, Nat.add_mul]

/-- C6 (amended): genus() computes exactly (sum(p) - 2*len(p))/4 + 1 and
the Integer coercion always succeeds -- sum(profile()) - 2*len(profile())
is divisible by 4 -- for every cover whose base diagram is well formed:
every label occurs an even number of times among the flattened letters,
and the base satisfies its own degree-one Euler invariant (divisibility by
4 of the orbit-length sum minus twice the orbit count); both are facts
about the external base collaborator, modelled from the spec.  The value
itself can be negative (claim C6's non-negativity fails, see the
counterexample), which is the only part of the claim dropped here. -/
theorem C6_genus_formula (c : PermutationCover)
    (hOcc : ∀ lab ∈ baseLetterLabels c, Even ((baseLetterLabels c).count lab))
    (hBase : (4 : ℤ) ∣
      ((baseOrbitLengthSum c : ℤ) - 2 * (c.baseDiagramGlued.length : ℤ))) :
    (4 : ℤ) ∣ (((profile c).sum : ℤ) - 2 * (Multiset.card (profile c) : ℤ)) ∧
    genusZ c = some
      ((((profile c).sum : ℤ) - 2 * (Multiset.card (profile c) : ℤ)) / 4 + 1) := by
  have hsum : (profile c).sum = c.degreeCover * baseOrbitLengthSum c := by
    unfold profile baseOrbitLengthSum
    rw [listSum_multiset_sum, List.map_map]
    have hcong : c.baseDiagramGlued.map (Multiset.sum ∘ fun o =>
        (fullCycleType
          (orbitPermOf c.degreeCover c.permutCover (flattenGlued o))).map
          (fun ℓ => o.length * ℓ)) =
        c.baseDiagramGlued.map (fun o => o.length * c.degreeCover) := by
      apply List.map_congr_left
      intro o _
      simp only [Function.comp]
      rw [Multiset.sum_map_mul_left]
      rw [show ((fullCycleType
          (orbitPermOf c.degreeCover c.permutCover (flattenGlued o))).map
          (fun i => i)) =
        fullCycleType (orbitPermOf c.degreeCover c.permutCover (flattenGlued o))
        from Multiset.map_id _]
      rw [fullCycleType_sum]
    rw [hcong, sum_map_mul_const, mul_comm]
  have hcard : Multiset.card (profile c) =
      (c.baseDiagramGlued.map (fun o => Multiset.card (fullCycleType
        (orbitPermOf c.degreeCover c.permutCover (flattenGlued o))))).sum := by
    unfold profile
    rw [listSum_multiset_card, List.map_map]
    congr 1
    apply List.map_congr_left
    intro o _
    simp only [Function.comp, Multiset.card_map]
  have hle : ∀ o ∈ c.baseDiagramGlued,
      Multiset.card (fullCycleType
        (orbitPermOf c.degreeCover c.permutCover (flattenGlued o))) ≤ c.degreeCover :=
    fun o _ => card_fullCycleType_le _
  have hSE := sum_map_add_sub c.baseDiagramGlued
    (fun o => Multiset.card (fullCycleType
      (orbitPermOf c.degreeCover c.permutCover (flattenGlued o)))) c.degreeCover hle
  have hEe : Even ((c.baseDiagramGlued.map (fun o => c.degreeCover -
      Multiset.card (fullCycleType
        (orbitPermOf c.degreeCover c.permutCover (flattenGlued o))))).sum) := by
    apply even_of_neg_one_pow_eq_one
    rw [← prod_map_neg_one_pow]
    have hc2 : c.baseDiagramGlued.map (fun o => (-1 : ℤˣ) ^ (c.degreeCover -
        Multiset.card (fullCycleType
          (orbitPermOf c.degreeCover c.permutCover (flattenGlued o))))) =
        c.baseDiagramGlued.map (fun o => Equiv.Perm.sign
          (orbitPermOf c.degreeCover c.permutCover (flattenGlued o))) := by
      apply List.map_congr_left
      intro o _
      rw [sign_fullCycleType]
    rw [hc2]
    exact sign_product_orbits c hOcc
  obtain ⟨m, hm⟩ := hEe
  obtain ⟨q, hq⟩ := hBase
  have hdvd : (4 : ℤ) ∣
      (((profile c).sum : ℤ) - 2 * (Multiset.card (profile c) : ℤ)) := by
    refine ⟨(c.degreeCover : ℤ) * q + (m : ℤ), ?_⟩
    have e1 : ((profile c).sum : ℤ) =
        (c.degreeCover : ℤ) * (baseOrbitLengthSum c : ℤ) := by
      exact_mod_cast hsum
    have e2 : ((Multiset.card (profile c) : ℕ) : ℤ) =
        (((c.baseDiagramGlued.map (fun o => Multiset.card (fullCycleType
          (orbitPermOf c.degreeCover c.permutCover (flattenGlued o))))).sum : ℕ) : ℤ) := by
      exact_mod_cast hcard
    have e3 : (((c.baseDiagramGlued.map (fun o => Multiset.card (fullCycleType
          (orbitPermOf c.degreeCover c.permutCover (flattenGlued o))))).sum : ℕ) : ℤ) +
        (((c.baseDiagramGlued.map (fun o => c.degreeCover - Multiset.card (fullCycleType
          (orbitPermOf c.degreeCover c.permutCover (flattenGlued o))))).sum : ℕ) : ℤ) =
        (c.baseDiagramGlued.length : ℤ) * (c.degreeCover : ℤ) := by
      exact_mod_cast hSE
    have e4 : (((c.baseDiagramGlued.map (fun o => c.degreeCover - Multiset.card (fullCycleType
          (orbitPermOf c.degreeCover c.permutCover (flattenGlued o))))).sum : ℕ) : ℤ) =
        (m : ℤ) + (m : ℤ) := by
      exact_mod_cast hm
    have e5 : (baseOrbitLengthSum c : ℤ) - 2 * (c.baseDiagramGlued.length : ℤ) = 4 * q := hq
    linear_combination e1 - 2 * e2 - 2 * e3 + 2 * e4 + (c.degreeCover : ℤ) * e5
  refine ⟨hdvd, ?_⟩
  simp only [genusZ]
  rw [if_pos hdvd]

/-- C6 counterexample: on the degree-2 cover of the generalized
permutation a a b / b c c with all monodromies the identity (two disjoint
copies of the genus-0 base), genus() returns -1, so the claim that the
genus is always a non-negative integer is false as stated. -/
theorem C6_genus_negative_counterexample :
    genusZ badCover = some (-1) ∧ (-1 : ℤ) < 0 :=
  ⟨by decide, by decide⟩

/-- Witness for C6: the trivial torus cover satisfies both base
hypotheses concretely, and the theorem gives the divisibility and the
formula (the genus there is 1). -/
theorem C6_genus_formula_witness :
    (∀ lab ∈ baseLetterLabels tCover, Even ((baseLetterLabels tCover).count lab)) ∧
    ((4 : ℤ) ∣
      ((baseOrbitLengthSum tCover : ℤ) - 2 * (tCover.baseDiagramGlued.length : ℤ))) ∧
    genusZ tCover = some
      ((((profile tCover).sum : ℤ) - 2 * (Multiset.card (profile tCover) : ℤ)) / 4 + 1) :=
  ⟨by decide, by decide, (C6_genus_formula tCover (by decide) (by decide)).2⟩

theorem listToPermOr1_apply_coe {n : ℕ} {l : List ℕ} (h : IsPermList n l)
    (i : Fin n) : ((listToPermOr1 n l) i : ℕ) = l.getD i.1 0 := by
  unfold listToPermOr1
  rw [dif_pos h]
  rfl

theorem listToPermOr1_inv_coe {n : ℕ} {l : List ℕ} (h : IsPermList n l)
    (j : Fin n) : (((listToPermOr1 n l)⁻¹) j : ℕ) = l.indexOf j.1 := by
  unfold listToPermOr1
  rw [dif_pos h]
  rfl

theorem coverStep_eq_wordPerm (n : ℕ) (perms : List (List ℕ)) (x : ℕ × Bool)
    (hx : IsPermList n (perms.getD x.1 [])) (d : ℕ) (hd : d < n) :
    coverStep perms x d = ((wordPerm n perms x) ⟨d, hd⟩ : ℕ) := by
  unfold coverStep wordPerm
  by_cases hs : x.2
  · simp only [hs, if_true]
    exact (listToPermOr1_inv_coe hx ⟨d, hd⟩).symm
  · simp only [hs, if_false]
    exact (listToPermOr1_apply_coe hx ⟨d, hd⟩).symm

theorem passOnce_eq_perm (n : ℕ) (perms : List (List ℕ))
    (orbit : List (ℕ × Bool))
    (hall : ∀ x ∈ orbit, IsPermList n (perms.getD x.1 [])) :
    ∀ (d : ℕ) (hd : d < n),
      passOnce perms orbit d = ((orbitPermOf n perms orbit) ⟨d, hd⟩ : ℕ) := by
  induction orbit with
  | nil =>
    intro d hd
    simp [passOnce, orbitPermOf]
  | cons x t ih =>
    intro d hd
    have hx : IsPermList n (perms.getD x.1 []) := hall x (List.mem_cons_self x t)
    have hstep := coverStep_eq_wordPerm n perms x hx d hd
    have hlt : coverStep perms x d < n := by
      rw [hstep]
      exact ((wordPerm n perms x) ⟨d, hd⟩).2
    have h1 : passOnce perms (x :: t) d = passOnce perms t (coverStep perms x d) := rfl
    have h2 : orbitPermOf n perms (x :: t) =
        orbitPermOf n perms t * wordPerm n perms x := by
      unfold orbitPermOf
      simp only [List.foldl_cons]
      rw [foldl_mul_eq (wordPerm n perms) t (wordPerm n perms x * 1), mul_one]
    rw [h1, h2, ih (fun y hy => hall y (List.mem_cons_of_mem x hy)) _ hlt,
      Equiv.Perm.mul_apply]
    have harg : (⟨coverStep perms x d, hlt⟩ : Fin n) = (wordPerm n perms x) ⟨d, hd⟩ :=
      Fin.ext hstep
    rw [harg]

theorem iterate_agree (n : ℕ) (F : ℕ → ℕ) (σ : Equiv.Perm (Fin n))
    (hagree : ∀ (d : ℕ) (hd : d < n), F d = ((σ ⟨d, hd⟩ : Fin n) : ℕ)) :
    ∀ (t c : ℕ) (hc : c < n),
      ∃ hlt : F^[t] c < n, F^[t] c = (((σ ^ t) ⟨c, hc⟩ : Fin n) : ℕ) := by
  intro t
  induction t with
  | zero =>
    intro c hc
    exact ⟨hc, by simp⟩
  | succ t ih =>
    intro c hc
    obtain ⟨hlt, hval⟩ := ih c hc
    have hstep : F (F^[t] c) = ((σ ⟨F^[t] c, hlt⟩ : Fin n) : ℕ) :=
      hagree (F^[t] c) hlt
    have hval2 : (σ ⟨F^[t] c, hlt⟩ : Fin n) = (σ ^ (t + 1)) ⟨c, hc⟩ := by
      rw [pow_succ', Equiv.Perm.mul_apply]
      have harg : (⟨F^[t] c, hlt⟩ : Fin n) = (σ ^ t) ⟨c, hc⟩ := Fin.ext hval
      rw [harg]
    refine ⟨?_, ?_⟩
    · rw [Function.iterate_succ_apply', hstep, hval2]
      exact ((σ ^ (t + 1)) ⟨c, hc⟩).2
    · rw [Function.iterate_succ_apply', hstep, hval2]

theorem perm_pow_return {n : ℕ} (σ : Equiv.Perm (Fin n)) (i : Fin n) :
    ∃ k, 1 ≤ k ∧ k ≤ n ∧ (σ ^ k) i = i := by
  have key : ∀ a b : ℕ, a < b → (σ ^ a) i = (σ ^ b) i → (σ ^ (b - a)) i = i := by
    intro a b hab he
    have h2 : (σ ^ a) ((σ ^ (b - a)) i) = (σ ^ a) i := by
      rw [← Equiv.Perm.mul_apply, ← pow_add,
        show a + (b - a) = b from by omega]
      exact he.symm
    exact (σ ^ a).injective h2
  have hcard : Fintype.card (Fin n) < Fintype.card (Fin (n + 1)) := by simp
  obtain ⟨a, b, hne, heq⟩ := Fintype.exists_ne_map_eq_of_card_lt
    (fun k : Fin (n + 1) => (σ ^ (k : ℕ)) i) hcard
  have hne2 : (a : ℕ) ≠ (b : ℕ) := fun h => hne (Fin.ext h)
  rcases Nat.lt_or_ge (a : ℕ) (b : ℕ) with hab | hab
  · refine ⟨(b : ℕ) - (a : ℕ), by omega, ?_, key _ _ hab heq⟩
    have := b.2
    omega
  · have hba : (b : ℕ) < (a : ℕ) := by omega
    refine ⟨(a : ℕ) - (b : ℕ), by omega, ?_, key _ _ hba heq.symm⟩
    have := a.2
    omega

theorem inOrbit_trans {F : ℕ → ℕ} {c x y : ℕ}
    (h1 : InOrbit F c x) (h2 : InOrbit F x y) : InOrbit F c y := by
  obtain ⟨t, rfl⟩ := h1
  obtain ⟨s, rfl⟩ := h2
  exact ⟨s + t, by rw [Function.iterate_add_apply]⟩

theorem inOrbit_symm (n : ℕ) (F : ℕ → ℕ) (σ : Equiv.Perm (Fin n))
    (hagree : ∀ (d : ℕ) (hd : d < n), F d = ((σ ⟨d, hd⟩ : Fin n) : ℕ))
    {c x : ℕ} (hc : c < n) (h : InOrbit F c x) : InOrbit F x c := by
  obtain ⟨t, rfl⟩ := h
  have hN1 : 1 ≤ orderOf σ := orderOf_pos σ
  refine ⟨t * (orderOf σ - 1), ?_⟩
  have hadd : F^[t * (orderOf σ - 1)] (F^[t] c) = F^[t * (orderOf σ - 1) + t] c :=
    (Function.iterate_add_apply F _ t c).symm
  have hexp : t * (orderOf σ - 1) + t = orderOf σ * t := by
    have h1 : orderOf σ - 1 + 1 = orderOf σ := by omega
    calc t * (orderOf σ - 1) + t = t * (orderOf σ - 1 + 1) := by ring
      _ = t * orderOf σ := by rw [h1]
      _ = orderOf σ * t := by ring
  rw [hadd, hexp]
  obtain ⟨hlt, hval⟩ := iterate_agree n F σ hagree (orderOf σ * t) c hc
  rw [hval, pow_mul, pow_orderOf_eq_one, one_pow]
  rfl

theorem traceCopies_eq_range (F : ℕ → ℕ) (c p : ℕ)
    (hpc : F^[p] c = c)
    (hmin : ∀ k, 1 ≤ k → k < p → F^[k] c ≠ c) :
    ∀ (fuel m : ℕ), m < p → p - m ≤ fuel →
      traceCopies F c (F^[m] c) fuel =
        (List.range (p - m)).map (fun t => F^[t + m] c) := by
  intro fuel
  induction fuel with
  | zero =>
    intro m hm hf
    omega
  | succ fuel ih =>
    intro m hm hf
    have hFm : F (F^[m] c) = F^[m + 1] c := (Function.iterate_succ_apply' F m c).symm
    by_cases hend : m + 1 = p
    · have hret : F (F^[m] c) = c := by
        rw [hFm, hend, hpc]
      show F^[m] c ::
          (if F (F^[m] c) = c then [] else traceCopies F c (F (F^[m] c)) fuel) = _
      rw [if_pos hret, show p - m = 1 from by omega,
        show List.range 1 = [0] from rfl]
      simp
    · have hne : F (F^[m] c) ≠ c := by
        rw [hFm]
        exact hmin (m + 1) (by omega) (by omega)
      simp only [traceCopies, if_neg hne]
      rw [hFm, ih (m + 1) (by omega) (by omega)]
      rw [show p - m = (p - (m + 1)) + 1 from by omega, List.range_succ_eq_map]
      simp only [List.map_cons, List.map_map, Nat.zero_add]
      congr 1
      apply List.map_congr_left
      intro t ht
      simp only [Function.comp]
      congr 1
      omega

theorem traceCopies_spec (n : ℕ) (F : ℕ → ℕ) (σ : Equiv.Perm (Fin n))
    (hagree : ∀ (d : ℕ) (hd : d < n), F d = ((σ ⟨d, hd⟩ : Fin n) : ℕ))
    (c : ℕ) (hc : c < n) :
    c ∈ traceCopies F c c n ∧
    (∀ x, x ∈ traceCopies F c c n ↔ (x < n ∧ InOrbit F c x)) := by
  have hex : ∃ k, 1 ≤ k ∧ k ≤ n ∧ F^[k] c = c := by
    obtain ⟨k, hk1, hkn, hkeq⟩ := perm_pow_return σ ⟨c, hc⟩
    obtain ⟨hlt, hval⟩ := iterate_agree n F σ hagree k c hc
    exact ⟨k, hk1, hkn, by rw [hval, hkeq]⟩
  have hex2 : ∃ k, 1 ≤ k ∧ F^[k] c = c :=
    hex.elim fun k hk => ⟨k, hk.1, hk.2.2⟩
  have hp1 : 1 ≤ Nat.find hex2 := (Nat.find_spec hex2).1
  have hpc : F^[Nat.find hex2] c = c := (Nat.find_spec hex2).2
  have hpn : Nat.find hex2 ≤ n := by
    obtain ⟨k, hk1, hkn, hkeq⟩ := hex
    exact le_trans (Nat.find_le ⟨hk1, hkeq⟩) hkn
  have hmin : ∀ k, 1 ≤ k → k < Nat.find hex2 → F^[k] c ≠ c := by
    intro k h1 h2 hkc
    exact (Nat.find_min hex2 h2) ⟨h1, hkc⟩
  have htc : traceCopies F c c n =
      (List.range (Nat.find hex2)).map (fun t => F^[t] c) := by
    have h := traceCopies_eq_range F c (Nat.find hex2) hpc hmin n 0
      (by omega) (by omega)
    simpa using h
  have hmod : ∀ (q a : ℕ), F^[a + Nat.find hex2 * q] c = F^[a] c := by
    intro q
    induction q with
    | zero => simp
    | succ q ih =>
      intro a
      rw [show a + Nat.find hex2 * (q + 1) = (a + Nat.find hex2 * q) + Nat.find hex2
        from by ring]
      rw [Function.iterate_add_apply, hpc, ih]
  constructor
  · rw [htc]
    exact List.mem_map.2 ⟨0, List.mem_range.2 (by omega), rfl⟩
  · intro x
    rw [htc]
    constructor
    · intro hx
      obtain ⟨t, ht, rfl⟩ := List.mem_map.1 hx
      obtain ⟨hlt, _⟩ := iterate_agree n F σ hagree t c hc
      exact ⟨hlt, ⟨t, rfl⟩⟩
    · rintro ⟨hxn, t, rfl⟩
      have hsplit : t % Nat.find hex2 + Nat.find hex2 * (t / Nat.find hex2) = t :=
        Nat.mod_add_div t (Nat.find hex2)
      refine List.mem_map.2 ⟨t % Nat.find hex2,
        List.mem_range.2 (Nat.mod_lt t (by omega)), ?_⟩
      rw [show F^[t] c = F^[t % Nat.find hex2 + Nat.find hex2 * (t / Nat.find hex2)] c
        from by rw [hsplit]]
      rw [hmod]

theorem coverOrbitsAux_partition (n : ℕ) (F : ℕ → ℕ) (σ : Equiv.Perm (Fin n))
    (hagree : ∀ (d : ℕ) (hd : d < n), F d = ((σ ⟨d, hd⟩ : Fin n) : ℕ)) :
    ∀ (fuel : ℕ) (pending : List ℕ),
      (∀ x ∈ pending, x < n) →
      (∀ x ∈ pending, ∀ y, y < n → InOrbit F x y → y ∈ pending) →
      pending.length ≤ fuel →
      (∀ cyc ∈ coverOrbitsAux F n pending fuel, ∀ x ∈ cyc, x ∈ pending) ∧
      (∀ dd ∈ pending, ∃! cyc,
        cyc ∈ coverOrbitsAux F n pending fuel ∧ dd ∈ cyc) := by
  intro fuel
  induction fuel with
  | zero =>
    intro pending hb hsat hlen
    have hnil : pending = [] := List.eq_nil_of_length_eq_zero (by omega)
    subst hnil
    exact ⟨by simp [coverOrbitsAux], by simp⟩
  | succ fuel ih =>
    intro pending hb hsat hlen
    cases pending with
    | nil => exact ⟨by simp [coverOrbitsAux], by simp⟩
    | cons c rest =>
      have hc : c < n := hb c (List.mem_cons_self c rest)
      obtain ⟨hcmem, hiff⟩ := traceCopies_spec n F σ hagree c hc
      have hrec : coverOrbitsAux F n (c :: rest) (fuel + 1) =
          traceCopies F c c n ::
            coverOrbitsAux F n
              (rest.filter (fun x => decide (x ∉ traceCopies F c c n))) fuel := rfl
      have hb2 : ∀ x ∈ rest.filter (fun x => decide (x ∉ traceCopies F c c n)), x < n :=
        fun x hx => hb x (List.mem_cons_of_mem c (List.mem_of_mem_filter hx))
      have hsat2 : ∀ x ∈ rest.filter (fun x => decide (x ∉ traceCopies F c c n)),
          ∀ y, y < n → InOrbit F x y →
            y ∈ rest.filter (fun x => decide (x ∉ traceCopies F c c n)) := by
        intro x hx y hy hxy
        have hxr := List.mem_filter.1 hx
        have hxnc : x ∉ traceCopies F c c n := of_decide_eq_true hxr.2
        have hxn : x < n := hb x (List.mem_cons_of_mem c hxr.1)
        have hyp : y ∈ c :: rest :=
          hsat x (List.mem_cons_of_mem c hxr.1) y hy hxy
        have hync : y ∉ traceCopies F c c n := by
          intro hyc
          have hcy : InOrbit F c y := ((hiff y).1 hyc).2
          have hyx : InOrbit F y x := inOrbit_symm n F σ hagree hxn hxy
          have hcx : InOrbit F c x := inOrbit_trans hcy hyx
          exact hxnc ((hiff x).2 ⟨hxn, hcx⟩)
        have hyr : y ∈ rest := by
          rcases List.mem_cons.1 hyp with h | h
          · exact absurd (h ▸ hcmem) hync
          · exact h
        exact List.mem_filter.2 ⟨hyr, decide_eq_true hync⟩
      have hlen2 : (rest.filter (fun x => decide (x ∉ traceCopies F c c n))).length ≤ fuel := by
        have h1 := List.length_filter_le (fun x => decide (x ∉ traceCopies F c c n)) rest
        simp only [List.length_cons] at hlen
        omega
      obtain ⟨ihA, ihB⟩ := ih (rest.filter (fun x => decide (x ∉ traceCopies F c c n)))
        hb2 hsat2 hlen2
      rw [hrec]
      constructor
      · intro cyc hcyc x hx
        rcases List.mem_cons.1 hcyc with h | h
        · subst h
          have hcx : InOrbit F c x := ((hiff x).1 hx).2
          have hxn : x < n := ((hiff x).1 hx).1
          exact hsat c (List.mem_cons_self c rest) x hxn hcx
        · have := ihA cyc h x hx
          exact List.mem_cons_of_mem c (List.mem_of_mem_filter this)
      · intro dd hdd
        by_cases hdc : dd ∈ traceCopies F c c n
        · refine ⟨traceCopies F c c n, ⟨List.mem_cons_self _ _, hdc⟩, ?_⟩
          rintro cyc2 ⟨hcyc2, hdd2⟩
          rcases List.mem_cons.1 hcyc2 with h | h
          · exact h
          · have := ihA cyc2 h dd hdd2
            have h2 := (List.mem_filter.1 this).2
            exact absurd hdc (of_decide_eq_true h2)
        · have hddp : dd ∈ rest.filter (fun x => decide (x ∉ traceCopies F c c n)) := by
            have hdr : dd ∈ rest := by
              rcases List.mem_cons.1 hdd with h | h
              · exact absurd (h ▸ hcmem) hdc
              · exact h
            exact List.mem_filter.2 ⟨hdr, decide_eq_true hdc⟩
          obtain ⟨cyc, ⟨hcyc, hddc⟩, huniq⟩ := ihB dd hddp
          refine ⟨cyc, ⟨List.mem_cons_of_mem _ hcyc, hddc⟩, ?_⟩
          rintro cyc2 ⟨hcyc2, hdd2⟩
          rcases List.mem_cons.1 hcyc2 with h | h
          · subst h
            exact absurd hdd2 hdc
          · exact huniq cyc2 ⟨h, hdd2⟩

/-- C9: interval_diagram terminates and its orbits partition the copies.
For every base singularity orbit (with labels inside the alphabet of a
valid cover), the full-pass copy map started at any copy d returns to d
after at most degree passes, and every copy belongs to exactly one of the
copy cycles traced by the outer loop (each such cycle yields exactly one
SingularityOrbit of intervalDiagram for that base orbit, by
construction). -/
theorem C9_interval_diagram_closes (c : PermutationCover) (hv : ValidCover c) :
    ∀ orbit ∈ c.baseDiagramSigned,
      (∀ x ∈ orbit, x.1 < c.alphabetSize) →
      ((∀ d, d < c.degreeCover → ∃ k, 1 ≤ k ∧ k ≤ c.degreeCover ∧
          (passOnce c.permutCover orbit)^[k] d = d) ∧
        (∀ d, d < c.degreeCover → ∃! cyc,
          cyc ∈ coverOrbits (passOnce c.permutCover orbit) c.degreeCover ∧
            d ∈ cyc)) := by
  intro orbit _ hlab
  have hall : ∀ x ∈ orbit, IsPermList c.degreeCover (c.permutCover.getD x.1 []) := by
    intro x hx
    have hlt : x.1 < c.permutCover.length := by
      rw [hv.1]
      exact hlab x hx
    rw [List.getD_eq_getElem _ _ hlt]
    exact hv.2 _ (List.getElem_mem hlt)
  have hagree : ∀ (d : ℕ) (hd : d < c.degreeCover),
      passOnce c.permutCover orbit d =
        (((orbitPermOf c.degreeCover c.permutCover orbit) ⟨d, hd⟩ : Fin _) : ℕ) :=
    fun d hd => passOnce_eq_perm _ _ orbit hall d hd
  constructor
  · intro d hd
    obtain ⟨k, hk1, hkn, hkeq⟩ :=
      perm_pow_return (orbitPermOf c.degreeCover c.permutCover orbit) ⟨d, hd⟩
    obtain ⟨hlt, hval⟩ := iterate_agree c.degreeCover (passOnce c.permutCover orbit)
      (orbitPermOf c.degreeCover c.permutCover orbit) hagree k d hd
    exact ⟨k, hk1, hkn, by rw [hval, hkeq]⟩
  · intro d hd
    have hpart := (coverOrbitsAux_partition c.degreeCover
      (passOnce c.permutCover orbit)
      (orbitPermOf c.degreeCover c.permutCover orbit) hagree c.degreeCover
      (List.range c.degreeCover)
      (fun x hx => List.mem_range.1 hx)
      (fun x _ y hy _ => List.mem_range.2 hy)
      (by simp)).2 d (List.mem_range.2 hd)
    exact hpart

/-- Witness for C9: the first base orbit of the degree-2 torus cover -- the
pass map closes within 2 passes from any copy, and the two copies are
partitioned by the traced cycles. -/
theorem C9_interval_diagram_closes_witness :
    (∀ d, d < c1Cover.degreeCover → ∃ k, 1 ≤ k ∧ k ≤ c1Cover.degreeCover ∧
        (passOnce c1Cover.permutCover [(0, false), (1, true)])^[k] d = d) ∧
    (∀ d, d < c1Cover.degreeCover → ∃! cyc,
      cyc ∈ coverOrbits (passOnce c1Cover.permutCover [(0, false), (1, true)])
          c1Cover.degreeCover ∧ d ∈ cyc) :=
  C9_interval_diagram_closes c1Cover (by decide) [(0, false), (1, true)]
    (by decide) (by decide)

/-- Validation of the modelled base interval diagrams against five
doctests of cover.py (lines 214-217, 221-222, 310-311, 328-331): the
embedded profile and genus reproduce the documented values for both base
permutations used by the claims. -/
theorem modelled_diagrams_match_doctests :
    profile tor3Cover = {6} ∧
    profile tor4Cover = {6, 2} ∧
    profile scenCCover = {2, 2, 2, 2} ∧
    profile scenDCover = {2, 2, 1, 1, 1, 1} ∧
    genusZ scenCCover = some 1 ∧
    genusZ scenDCover = some 0 := by decide

/-- Supporting evidence for C1/C2: on the same cover and deck data where
the code's matrices fail, the matrices assembled from the docstring
formula (column built from the element action at d, not d-1) are genuine
Serre projectors: idempotent and summing to the identity. -/
theorem spec_formula_projectors_work :
    matMul (specProjectionMatrix c1Cover (charactersOf s2Data) 0)
        (specProjectionMatrix c1Cover (charactersOf s2Data) 0) =
      specProjectionMatrix c1Cover (charactersOf s2Data) 0 ∧
    matMul (specProjectionMatrix c1Cover (charactersOf s2Data) 1)
        (specProjectionMatrix c1Cover (charactersOf s2Data) 1) =
      specProjectionMatrix c1Cover (charactersOf s2Data) 1 ∧
    matAdd (specProjectionMatrix c1Cover (charactersOf s2Data) 0)
        (specProjectionMatrix c1Cover (charactersOf s2Data) 1) =
      matId (relHomologyGenerator c1Cover).length := by decide
